import Mathlib

/-!
# Shallow embedding of the `OnChain2048` Solidity contract

This file embeds the on-chain 2048 game engine (the Solidity contract found in
`src/src/main.jsx`) into Lean and proves the specification claims about it.

Modelling conventions:
* the 4×4 board (`uint256[16] public board`) is a `List Nat` of length 16;
* `score`, `nonce` are `Nat`; `gameOver` is `Bool`;
* `_random()` (a keccak hash of block data, the sender and the incremented
  nonce) is modelled by an externally supplied entropy function
  `e : Nat → Nat` applied to the fresh nonce value — within one transaction
  the block data and sender are fixed, so the hash is a pure function of
  the nonce;
* a Solidity `revert`/failed `require` is an `Except.error`; the wrapper
  `moveTx` realises the EVM rollback semantics (an erroring call leaves the
  state exactly as it was and emits no events).
-/

/-- The observable events emitted by the contract. -/
inductive Event where
  | moveMade (direction newScore : Nat)
  | newTileAdded (position value : Nat)
deriving DecidableEq, Repr

/-- The two revert reasons of `move`: `"Game over"` and `"Invalid direction"`. -/
inductive MoveError where
  | gameOverErr
  | invalidDirection
deriving DecidableEq, Repr

/-- The contract storage relevant to the game engine. -/
structure GameState where
  board : List Nat
  score : Nat
  gameOver : Bool
  nonce : Nat
deriving DecidableEq, Repr

/-- Read `board[i]` (out-of-range reads do not occur on 16-cell boards). -/
def getCell (b : List Nat) (i : Nat) : Nat := b.getD i 0

/-- The `while (readIdx < len)` pass of `_merge`: walk the extracted non-zero
values; an equal adjacent pair becomes one doubled tile, adds the doubled
value to the gained score and sets `moved`; otherwise the value is copied.
Returns (compacted values, added score, moved-by-merge flag). -/
def mergePass : List Nat → List Nat × Nat × Bool
  | [] => ([], 0, false)
  | [a] => ([a], 0, false)
  | a :: b :: rest =>
    if a = b ∧ a ≠ 0 then
      match mergePass rest with
      | (l, s, _) => (a * 2 :: l, s + a * 2, true)
    else
      match mergePass (b :: rest) with
      | (l, s, m) => (a :: l, s, m)

/-- The positional-change check of `_merge`: `for i < len, line[i] != newLine[i]`.
`line` is the extracted sequence (length = `len`), `new4` the merged line
padded to 4 entries. -/
def lineChanged (line new4 : List Nat) : Bool :=
  (List.range line.length).any fun i => getCell line i != getCell new4 i

/-- `_merge(line, len)`: takes the extracted non-zero values of one line
(`line`, of length `len ≤ 4`) and returns the resulting 4-entry line
(merged values padded with zeros — the content the caller writes back),
the gained score, and the `moved` flag (merge happened or a compared
position changed). For `len = 0` the code returns early; the caller's
array is all zeros then, which equals the padded empty merge result. -/
def merge (line : List Nat) : List Nat × Nat × Bool :=
  match mergePass line with
  | (nl, s, m) =>
    let new4 := nl ++ List.replicate (4 - nl.length) 0
    (new4, s, m || lineChanged line new4)

/-- Write the 4 merged values back into the board along the traversal order
`idxs` (the `board[...] = (idx < 4) ? col[idx++] : 0` loops). -/
def writeBack : List Nat → List Nat → List Nat → List Nat
  | b, [], _ => b
  | b, i :: is, vs => writeBack (b.set i (vs.headD 0)) is vs.tail

/-- Process one line: extract the non-zero values along `idxs`, merge them,
and write the result back along `idxs`. Returns the new board, the line's
gained score and its `moved` flag. -/
def moveLine (b : List Nat) (idxs : List Nat) : List Nat × Nat × Bool :=
  let ext := (idxs.map (getCell b)).filter (· ≠ 0)
  match merge ext with
  | (new4, s, m) => (writeBack b idxs new4, s, m)

/-- Process the four lines of a move in order, accumulating the score and
or-ing the per-line `moved` flags (the bodies of `_moveUp` … `_moveRight`). -/
def foldLines : List Nat → List (List Nat) → List Nat × Nat × Bool
  | b, [] => (b, 0, false)
  | b, idxs :: rest =>
    match moveLine b idxs with
    | (b1, s1, m1) =>
      match foldLines b1 rest with
      | (b2, s2, m2) => (b2, s1 + s2, m1 || m2)

/-- `_moveUp` traversal: for each column `x`, rows top→bottom (`board[y*4+x]`). -/
def idxsUp : List (List Nat) :=
  [[0, 4, 8, 12], [1, 5, 9, 13], [2, 6, 10, 14], [3, 7, 11, 15]]

/-- `_moveDown` traversal: for each column `x`, rows bottom→top. -/
def idxsDown : List (List Nat) :=
  [[12, 8, 4, 0], [13, 9, 5, 1], [14, 10, 6, 2], [15, 11, 7, 3]]

/-- `_moveLeft` traversal: for each row `y`, columns left→right. -/
def idxsLeft : List (List Nat) :=
  [[0, 1, 2, 3], [4, 5, 6, 7], [8, 9, 10, 11], [12, 13, 14, 15]]

/-- `_moveRight` traversal: for each row `y`, columns right→left. -/
def idxsRight : List (List Nat) :=
  [[3, 2, 1, 0], [7, 6, 5, 4], [11, 10, 9, 8], [15, 14, 13, 12]]

/-- The traversal orders of the four directions 0=up, 1=down, 2=left, 3=right. -/
def dirIdxs (d : Nat) : List (List Nat) :=
  if d = 0 then idxsUp
  else if d = 1 then idxsDown
  else if d = 2 then idxsLeft
  else idxsRight

/-- The board transformation of `_moveUp`/`_moveDown`/`_moveLeft`/`_moveRight`
for direction `d < 4`: new board, total gained score, overall `moved` flag. -/
def applyMove (b : List Nat) (d : Nat) : List Nat × Nat × Bool :=
  foldLines b (dirIdxs d)

/-- `_isGameOver()`: true iff no cell is 0, no two horizontally adjacent cells
are equal, and no two vertically adjacent cells are equal. -/
def isGameOverBoard (b : List Nat) : Bool :=
  ((List.range 16).all fun i => getCell b i != 0) &&
  ((List.range 4).all fun y => (List.range 3).all fun x =>
      getCell b (y * 4 + x) != getCell b (y * 4 + x + 1)) &&
  ((List.range 4).all fun x => (List.range 3).all fun y =>
      getCell b (y * 4 + x) != getCell b ((y + 1) * 4 + x))

/-- Index of the `pos`-th zero cell (the placement loop of `_addRandomTile`). -/
def nthZeroIdx : List Nat → Nat → Option Nat
  | [], _ => none
  | v :: rest, pos =>
    if v = 0 then
      if pos = 0 then some 0 else (nthZeroIdx rest (pos - 1)).map (· + 1)
    else (nthZeroIdx rest pos).map (· + 1)

/-- `_addRandomTile()`: counts empty cells; if none, returns unchanged (the
early `return` happens before any `_random()` call). Otherwise draws a
position among the empty cells and a value (2 with 9/10 odds, else 4) from
two `_random()` calls — each advances the nonce — writes the value into the
chosen empty cell and reports `(position, value)` for the `NewTileAdded`
event. -/
def addRandomTile (e : Nat → Nat) (s : GameState) : GameState × Option (Nat × Nat) :=
  let emptyCount := s.board.count 0
  if emptyCount = 0 then (s, none)
  else
    let n1 := s.nonce + 1
    let pos := e n1 % emptyCount
    let n2 := n1 + 1
    let value := if e n2 % 10 < 9 then 2 else 4
    match nthZeroIdx s.board pos with
    | some i => ({ s with board := s.board.set i value, nonce := n2 }, some (i, value))
    | none => ({ s with nonce := n2 }, none)

/-- `move(direction)`: requires the game not to be over, dispatches on the
four directions (reverting on any other value), writes the merged lines
back, accumulates the score, and — only if some line reported `moved` —
spawns a tile (emitting `NewTileAdded`), emits `MoveMade` and re-evaluates
the terminal detector. -/
def move (e : Nat → Nat) (s : GameState) (direction : Nat) :
    Except MoveError (GameState × List Event) :=
  if s.gameOver then .error .gameOverErr
  else if direction < 4 then
    match applyMove s.board direction with
    | (b1, added, moved) =>
      let s1 : GameState := { s with board := b1, score := s.score + added }
      if moved then
        match addRandomTile e s1 with
        | (s2, tile) =>
          let tileEvents := match tile with
            | some (p, v) => [Event.newTileAdded p v]
            | none => []
          let s3 := if isGameOverBoard s2.board then { s2 with gameOver := true } else s2
          .ok (s3, tileEvents ++ [Event.moveMade direction s2.score])
      else
        .ok (s1, [])
  else .error .invalidDirection

/-- A `move` transaction with EVM rollback semantics: a revert leaves the
state exactly as it was and emits nothing. -/
def moveTx (e : Nat → Nat) (s : GameState) (direction : Nat) :
    GameState × Option MoveError × List Event :=
  match move e s direction with
  | .error err => (s, some err, [])
  | .ok (s', evs) => (s', none, evs)

/-- The freshly cleared storage of `resetGame` before the two spawns:
`delete board; score = 0; gameOver = false; nonce = 0`. -/
def initState : GameState :=
  { board := List.replicate 16 0, score := 0, gameOver := false, nonce := 0 }

/-- `resetGame()`: overwrites all prior storage with the cleared state and
spawns two tiles. The prior state is ignored entirely by the code. -/
def resetGame (e : Nat → Nat) (prior : GameState) : GameState × List Event :=
  let _ := prior
  match addRandomTile e initState with
  | (s1, t1) =>
    match addRandomTile e s1 with
    | (s2, t2) =>
      (s2, (match t1 with | some (p, v) => [Event.newTileAdded p v] | none => []) ++
           (match t2 with | some (p, v) => [Event.newTileAdded p v] | none => []))

/-- Run a sequence of `move` transactions (each with its own entropy). -/
def runMoves : GameState → List ((Nat → Nat) × Nat) → GameState
  | s, [] => s
  | s, (e, d) :: rest => runMoves (moveTx e s d).1 rest

/-- The states reachable by any sequence of `resetGame` and `move`
transactions from initialization (the constructor calls `resetGame`),
under any entropy. -/
inductive Reachable : GameState → Prop
  | reset (e : Nat → Nat) (prior : GameState) : Reachable (resetGame e prior).1
  | step (e : Nat → Nat) (d : Nat) {s : GameState} :
      Reachable s → Reachable (moveTx e s d).1

/-- A valid cell value: 0 (empty) or a power of two that is at least 2. -/
def validCell (v : Nat) : Prop := v = 0 ∨ (2 ≤ v ∧ ∃ k, v = 2 ^ k)

/-- The board invariant: exactly 16 entries, each a valid cell value. -/
def validBoard (b : List Nat) : Prop := b.length = 16 ∧ ∀ v ∈ b, validCell v

/-- Specification-side description of the score gained by one merge pass:
the sum of the doubled values created by the merges (each equal adjacent
pair of non-zero values contributes its doubled value, and the pass then
skips past the pair). -/
def mergePairsScore : List Nat → Nat
  | [] => 0
  | [_] => 0
  | a :: b :: rest =>
    if a = b ∧ a ≠ 0 then a * 2 + mergePairsScore rest
    else mergePairsScore (b :: rest)

/-- Specification-side total merge score of a move: the sum over the four
lines of the merge score of that line's extracted non-zero values. -/
def moveMergeScore (b : List Nat) (d : Nat) : Nat :=
  ((dirIdxs d).map fun idxs => mergePairsScore ((idxs.map (getCell b)).filter (· ≠ 0))).sum

/-- A board whose only tile sits away from every compression edge's leading
cell: one `2` at index 1 (row 0, column 1), all other cells empty. -/
def slideBoard : List Nat :=
  [0, 2, 0, 0, 0, 0, 0, 0, 0, 0, 0, 0, 0, 0, 0, 0]

/-- The game state holding `slideBoard`, score 0, game not over, nonce 0. -/
def slideState : GameState :=
  { board := slideBoard, score := 0, gameOver := false, nonce := 0 }

/-! ### Helper lemmas about cells and `List.set` -/

lemma getCell_set_self {b : List Nat} {i : Nat} (h : i < b.length) (v : Nat) :
    getCell (b.set i v) i = v := by
  unfold getCell
  rw [List.getD_eq_getElem _ _ (by simpa using h)]
  simp [List.getElem_set_self]

lemma getCell_set_ne {b : List Nat} {i j : Nat} (h : i ≠ j) (v : Nat) :
    getCell (b.set i v) j = getCell b j := by
  unfold getCell
  rcases lt_or_le j b.length with hj | hj
  · rw [List.getD_eq_getElem _ _ (by simpa using hj), List.getD_eq_getElem _ _ hj,
      List.getElem_set_ne h]
  · rw [List.getD_eq_default _ _ (by simpa using hj), List.getD_eq_default _ _ hj]

lemma sum_set_add {b : List Nat} {i : Nat} (h : i < b.length) (v : Nat) :
    (b.set i v).sum + getCell b i = b.sum + v := by
  induction b generalizing i with
  | nil => simp at h
  | cons a rest ih =>
    cases i with
    | zero => simp [getCell, List.set]; omega
    | succ i =>
      simp only [List.set, List.sum_cons]
      have := ih (i := i) (by simpa using h)
      simp only [getCell, List.getD_cons_succ] at *
      omega

/-! ### Helper lemmas about `mergePass` -/

lemma mergePass_flag_false_score (l : List Nat) :
    (mergePass l).2.2 = false → (mergePass l).2.1 = 0 := by
  induction l using mergePass.induct with
  | case1 => simp [mergePass]
  | case2 a => simp [mergePass]
  | case3 a b rest h l' s' m' heq ih =>
    simp [mergePass, if_pos h, heq]
  | case4 a b rest h l' s' m' heq ih =>
    simp only [mergePass, if_neg h, heq]
    intro hf
    simpa [heq] using ih (by simp [heq, hf])

lemma mergePass_sum (l : List Nat) : ((mergePass l).1).sum = l.sum := by
  induction l using mergePass.induct with
  | case1 => simp [mergePass]
  | case2 a => simp [mergePass]
  | case3 a b rest h l' s' m' heq ih =>
    simp only [mergePass, if_pos h, heq] at ih ⊢
    simp only [List.sum_cons, ih, h.1]
    omega
  | case4 a b rest h l' s' m' heq ih =>
    simp only [mergePass, if_neg h, heq] at ih ⊢
    simp [List.sum_cons, ih]

lemma mergePass_score_spec (l : List Nat) : (mergePass l).2.1 = mergePairsScore l := by
  induction l using mergePass.induct with
  | case1 => simp [mergePass, mergePairsScore]
  | case2 a => simp [mergePass, mergePairsScore]
  | case3 a b rest h l' s' m' heq ih =>
    simp only [mergePass, mergePairsScore, if_pos h, heq] at ih ⊢
    simp [ih]
    omega
  | case4 a b rest h l' s' m' heq ih =>
    simp only [mergePass, mergePairsScore, if_neg h, heq] at ih ⊢
    simp [ih]

lemma mergePass_mem (l : List Nat) :
    ∀ v ∈ (mergePass l).1, v ∈ l ∨ ∃ w ∈ l, v = w * 2 := by
  induction l using mergePass.induct with
  | case1 => simp [mergePass]
  | case2 a => simp [mergePass]
  | case3 a b rest h l' s' m' heq ih =>
    simp only [mergePass, if_pos h, heq] at ih ⊢
    intro v hv
    rcases List.mem_cons.mp hv with rfl | hv'
    · exact Or.inr ⟨a, by simp, rfl⟩
    · rcases ih v hv' with hmem | ⟨w, hw, rfl⟩
      · exact Or.inl (by simp [hmem])
      · exact Or.inr ⟨w, by simp [hw], rfl⟩
  | case4 a b rest h l' s' m' heq ih =>
    simp only [mergePass, if_neg h, heq] at ih ⊢
    intro v hv
    rcases List.mem_cons.mp hv with rfl | hv'
    · exact Or.inl (by simp)
    · rcases ih v hv' with hmem | ⟨w, hw, rfl⟩
      · exact Or.inl (List.mem_cons_of_mem a hmem)
      · exact Or.inr ⟨w, List.mem_cons_of_mem a hw, rfl⟩

lemma mergePass_length_le (l : List Nat) : (mergePass l).1.length ≤ l.length := by
  induction l using mergePass.induct with
  | case1 => simp [mergePass]
  | case2 a => simp [mergePass]
  | case3 a b rest h l' s' m' heq ih =>
    simp only [mergePass, if_pos h, heq] at ih ⊢
    simp only [List.length_cons]
    omega
  | case4 a b rest h l' s' m' heq ih =>
    simp only [mergePass, if_neg h, heq] at ih ⊢
    simp only [List.length_cons] at ih ⊢
    omega

/-! ### Helper lemmas about `merge`, extraction and `writeBack` -/

lemma sum_filter_ne_zero (l : List Nat) : (l.filter (· ≠ 0)).sum = l.sum := by
  induction l with
  | nil => simp
  | cons a rest ih =>
    by_cases ha : a = 0
    · rw [List.filter_cons, if_neg (by simp [ha]), ih]
      simp [ha]
    · rw [List.filter_cons, if_pos (by simp [ha])]
      simp only [List.sum_cons, ih]

lemma getCell_mem_or_zero (b : List Nat) (i : Nat) :
    getCell b i ∈ b ∨ getCell b i = 0 := by
  rcases lt_or_le i b.length with h | h
  · exact Or.inl (by rw [getCell, List.getD_eq_getElem _ _ h]; exact List.getElem_mem h)
  · exact Or.inr (by rw [getCell, List.getD_eq_default _ _ h])

lemma merge_flag_false_score (line : List Nat) :
    (merge line).2.2 = false → (merge line).2.1 = 0 := by
  unfold merge
  rcases hm : mergePass line with ⟨nl, s, m⟩
  simp only [Bool.or_eq_false_iff]
  intro hf
  have := mergePass_flag_false_score line (by simp [hm, hf.1])
  simpa [hm] using this

lemma merge_sum (line : List Nat) : ((merge line).1).sum = line.sum := by
  unfold merge
  rcases hm : mergePass line with ⟨nl, s, m⟩
  have := mergePass_sum line
  simp only [hm] at this
  simp [List.sum_append, this, List.sum_replicate]

lemma merge_score (line : List Nat) : (merge line).2.1 = mergePairsScore line := by
  unfold merge
  rcases hm : mergePass line with ⟨nl, s, m⟩
  have := mergePass_score_spec line
  simpa [hm] using this

lemma merge_mem (line : List Nat) :
    ∀ v ∈ (merge line).1, v ∈ line ∨ (∃ w ∈ line, v = w * 2) ∨ v = 0 := by
  unfold merge
  rcases hm : mergePass line with ⟨nl, s, m⟩
  intro v hv
  simp only [List.mem_append] at hv
  rcases hv with hv | hv
  · rcases mergePass_mem line v (by simp [hm, hv]) with h2 | h2
    · exact Or.inl h2
    · exact Or.inr (Or.inl h2)
  · exact Or.inr (Or.inr (List.eq_of_mem_replicate hv))

lemma merge_length (line : List Nat) (h : line.length ≤ 4) :
    (merge line).1.length = 4 := by
  unfold merge
  rcases hm : mergePass line with ⟨nl, s, m⟩
  have hle : nl.length ≤ 4 := by
    have := mergePass_length_le line
    simp only [hm] at this
    omega
  simp [List.length_append, List.length_replicate]
  omega

lemma length_writeBack : ∀ (idxs b vs : List Nat),
    (writeBack b idxs vs).length = b.length := by
  intro idxs
  induction idxs with
  | nil => intro b vs; simp [writeBack]
  | cons i is ih =>
    intro b vs
    simp [writeBack, ih, List.length_set]

lemma getCell_writeBack_not_mem : ∀ (idxs b vs : List Nat) (j : Nat), j ∉ idxs →
    getCell (writeBack b idxs vs) j = getCell b j := by
  intro idxs
  induction idxs with
  | nil => intro b vs j _; simp [writeBack]
  | cons i is ih =>
    intro b vs j hj
    simp only [List.mem_cons, not_or] at hj
    rw [writeBack, ih _ _ _ hj.2, getCell_set_ne (fun h => hj.1 h.symm)]

lemma writeBack_mem : ∀ (idxs b vs : List Nat), ∀ v ∈ writeBack b idxs vs,
    v ∈ b ∨ v ∈ vs ∨ v = 0 := by
  intro idxs
  induction idxs with
  | nil => intro b vs v hv; exact Or.inl hv
  | cons i is ih =>
    intro b vs v hv
    rw [writeBack] at hv
    rcases ih _ _ v hv with hmem | hmem | rfl
    · rcases List.mem_or_eq_of_mem_set hmem with h | rfl
      · exact Or.inl h
      · cases vs with
        | nil => exact Or.inr (Or.inr rfl)
        | cons x xs => exact Or.inr (Or.inl (by simp))
    · exact Or.inr (Or.inl (List.mem_of_mem_tail hmem))
    · exact Or.inr (Or.inr rfl)

lemma sum_writeBack : ∀ (idxs b vs : List Nat), idxs.Nodup →
    (∀ i ∈ idxs, i < b.length) →
    (writeBack b idxs vs).sum + ((idxs.map (getCell b)).sum) =
      b.sum + (vs.take idxs.length).sum := by
  intro idxs
  induction idxs with
  | nil => intro b vs _ _; simp [writeBack]
  | cons i is ih =>
    intro b vs hnd hlt
    have hi : i < b.length := hlt i (by simp)
    have hnotmem : i ∉ is := (List.nodup_cons.mp hnd).1
    have ihs := ih (b.set i (vs.headD 0)) vs.tail (List.nodup_cons.mp hnd).2
      (fun j hj => by rw [List.length_set]; exact hlt j (List.mem_cons_of_mem i hj))
    have hmap : is.map (getCell (b.set i (vs.headD 0))) = is.map (getCell b) := by
      refine List.map_congr_left fun j hj => ?_
      refine getCell_set_ne (fun h => hnotmem ?_) _
      rw [h]; exact hj
    rw [hmap] at ihs
    have hset := sum_set_add hi (vs.headD 0)
    have htake : (vs.take (is.length + 1)).sum = vs.headD 0 + (vs.tail.take is.length).sum := by
      cases vs with
      | nil => simp
      | cons x xs => simp [List.take_succ_cons]
    rw [writeBack]
    simp only [List.map_cons, List.sum_cons, List.length_cons, htake]
    omega

/-! ### Cell validity -/

lemma validCell_zero : validCell 0 := Or.inl rfl

lemma validCell_two : validCell 2 := Or.inr ⟨le_refl 2, 1, rfl⟩

lemma validCell_four : validCell 4 := Or.inr ⟨by omega, 2, rfl⟩

lemma validCell_double {w : Nat} (h : validCell w) : validCell (w * 2) := by
  rcases h with rfl | ⟨h2, k, rfl⟩
  · exact Or.inl rfl
  · refine Or.inr ⟨by omega, k + 1, ?_⟩
    rw [pow_succ]

lemma extract_valid {b : List Nat} (hb : ∀ v ∈ b, validCell v) (idxs : List Nat) :
    ∀ v ∈ (idxs.map (getCell b)).filter (· ≠ 0), validCell v := by
  intro v hv
  have hv' := List.mem_of_mem_filter hv
  rcases List.mem_map.mp hv' with ⟨i, _, rfl⟩
  rcases getCell_mem_or_zero b i with h | h
  · exact hb _ h
  · rw [h]; exact validCell_zero

/-! ### Helper lemmas about `moveLine` and `foldLines` -/

lemma moveLine_length (b idxs : List Nat) : (moveLine b idxs).1.length = b.length := by
  unfold moveLine
  rcases hm : merge ((idxs.map (getCell b)).filter (· ≠ 0)) with ⟨new4, s, m⟩
  simp [length_writeBack]

lemma moveLine_flag_false_score (b idxs : List Nat) :
    (moveLine b idxs).2.2 = false → (moveLine b idxs).2.1 = 0 := by
  unfold moveLine
  rcases hm : merge ((idxs.map (getCell b)).filter (· ≠ 0)) with ⟨new4, s, m⟩
  simp only [hm]
  intro hf
  have h2 := merge_flag_false_score ((idxs.map (getCell b)).filter (· ≠ 0))
  rw [hm] at h2
  exact h2 hf

lemma moveLine_score (b idxs : List Nat) :
    (moveLine b idxs).2.1 = mergePairsScore ((idxs.map (getCell b)).filter (· ≠ 0)) := by
  unfold moveLine
  rcases hm : merge ((idxs.map (getCell b)).filter (· ≠ 0)) with ⟨new4, s, m⟩
  simp only [hm]
  have h2 := merge_score ((idxs.map (getCell b)).filter (· ≠ 0))
  rw [hm] at h2
  exact h2

lemma moveLine_sum (b idxs : List Nat) (hnd : idxs.Nodup) (hlen : idxs.length = 4)
    (hlt : ∀ i ∈ idxs, i < b.length) :
    ((moveLine b idxs).1).sum = b.sum := by
  unfold moveLine
  rcases hm : merge ((idxs.map (getCell b)).filter (· ≠ 0)) with ⟨new4, s, m⟩
  simp only [hm]
  have hwb := sum_writeBack idxs b new4 hnd hlt
  have hext_le : ((idxs.map (getCell b)).filter (· ≠ 0)).length ≤ 4 := by
    calc ((idxs.map (getCell b)).filter (· ≠ 0)).length
        ≤ (idxs.map (getCell b)).length := List.length_filter_le _ _
      _ = 4 := by simp [hlen]
  have hlen4 : new4.length = 4 := by
    have := merge_length _ hext_le
    rw [hm] at this
    exact this
  have htake : new4.take idxs.length = new4 := by
    refine List.take_of_length_le ?_
    omega
  have hsum4 : new4.sum = (idxs.map (getCell b)).sum := by
    have h1 := merge_sum ((idxs.map (getCell b)).filter (· ≠ 0))
    rw [hm] at h1
    rw [h1, sum_filter_ne_zero]
  rw [htake, hsum4] at hwb
  omega

lemma moveLine_valid {b : List Nat} (idxs : List Nat) (hb : ∀ v ∈ b, validCell v) :
    ∀ v ∈ (moveLine b idxs).1, validCell v := by
  unfold moveLine
  rcases hm : merge ((idxs.map (getCell b)).filter (· ≠ 0)) with ⟨new4, s, m⟩
  simp only [hm]
  intro v hv
  rcases writeBack_mem idxs b new4 v hv with h | h | rfl
  · exact hb v h
  · have h2 := merge_mem ((idxs.map (getCell b)).filter (· ≠ 0)) v
    rw [hm] at h2
    rcases h2 h with h3 | ⟨w, hw, rfl⟩ | rfl
    · exact extract_valid hb idxs v h3
    · exact validCell_double (extract_valid hb idxs w hw)
    · exact validCell_zero
  · exact validCell_zero

lemma foldLines_length : ∀ (liness : List (List Nat)) (b : List Nat),
    (foldLines b liness).1.length = b.length := by
  intro liness
  induction liness with
  | nil => intro b; simp [foldLines]
  | cons idxs rest ih =>
    intro b
    rcases h1 : moveLine b idxs with ⟨b1, s1, m1⟩
    rcases h2 : foldLines b1 rest with ⟨b2, s2, m2⟩
    simp only [foldLines, h1, h2]
    have e1 := moveLine_length b idxs
    rw [h1] at e1
    have e2 := ih b1
    rw [h2] at e2
    simp only at e1 e2
    rw [e2, e1]

lemma foldLines_flag_false_score : ∀ (liness : List (List Nat)) (b : List Nat),
    (foldLines b liness).2.2 = false → (foldLines b liness).2.1 = 0 := by
  intro liness
  induction liness with
  | nil => intro b _; simp [foldLines]
  | cons idxs rest ih =>
    intro b
    rcases h1 : moveLine b idxs with ⟨b1, s1, m1⟩
    rcases h2 : foldLines b1 rest with ⟨b2, s2, m2⟩
    simp only [foldLines, h1, h2, Bool.or_eq_false_iff]
    rintro ⟨hm1, hm2⟩
    have e1 := moveLine_flag_false_score b idxs
    rw [h1] at e1
    have e2 := ih b1
    rw [h2] at e2
    simp only at e1 e2
    rw [e1 hm1, e2 hm2]

lemma foldLines_sum : ∀ (liness : List (List Nat)) (b : List Nat),
    (∀ idxs ∈ liness, idxs.Nodup ∧ idxs.length = 4 ∧ ∀ i ∈ idxs, i < b.length) →
    ((foldLines b liness).1).sum = b.sum := by
  intro liness
  induction liness with
  | nil => intro b _; simp [foldLines]
  | cons idxs rest ih =>
    intro b hcond
    rcases h1 : moveLine b idxs with ⟨b1, s1, m1⟩
    rcases h2 : foldLines b1 rest with ⟨b2, s2, m2⟩
    simp only [foldLines, h1, h2]
    obtain ⟨hnd, hlen, hlt⟩ := hcond idxs (by simp)
    have e1 := moveLine_sum b idxs hnd hlen hlt
    rw [h1] at e1
    have hb1len : b1.length = b.length := by
      have := moveLine_length b idxs
      rw [h1] at this
      exact this
    have e2 := ih b1 (fun idxs' h' => by
      obtain ⟨a1, a2, a3⟩ := hcond idxs' (List.mem_cons_of_mem _ h')
      exact ⟨a1, a2, fun i hi => hb1len ▸ a3 i hi⟩)
    rw [h2] at e2
    simp only at e1 e2
    rw [e2, e1]

lemma foldLines_valid : ∀ (liness : List (List Nat)) (b : List Nat),
    (∀ v ∈ b, validCell v) → ∀ v ∈ (foldLines b liness).1, validCell v := by
  intro liness
  induction liness with
  | nil => intro b hb; simpa [foldLines] using hb
  | cons idxs rest ih =>
    intro b hb
    rcases h1 : moveLine b idxs with ⟨b1, s1, m1⟩
    rcases h2 : foldLines b1 rest with ⟨b2, s2, m2⟩
    simp only [foldLines, h1, h2]
    have e1 := moveLine_valid idxs hb
    rw [h1] at e1
    have e2 := ih b1 e1
    rw [h2] at e2
    exact e2

lemma moveLine_frame (b idxs : List Nat) {j : Nat} (hj : j ∉ idxs) :
    getCell (moveLine b idxs).1 j = getCell b j := by
  unfold moveLine
  rcases hm : merge ((idxs.map (getCell b)).filter (· ≠ 0)) with ⟨new4, s, m⟩
  simp only [hm]
  exact getCell_writeBack_not_mem idxs b new4 j hj

lemma foldLines_score : ∀ (liness : List (List Nat)) (b : List Nat),
    liness.Pairwise (fun l1 l2 => ∀ j ∈ l2, j ∉ l1) →
    (foldLines b liness).2.1 =
      (liness.map fun idxs => mergePairsScore ((idxs.map (getCell b)).filter (· ≠ 0))).sum := by
  intro liness
  induction liness with
  | nil => intro b _; simp [foldLines]
  | cons idxs rest ih =>
    intro b hpw
    rcases List.pairwise_cons.mp hpw with ⟨hhead, htail⟩
    rcases h1 : moveLine b idxs with ⟨b1, s1, m1⟩
    rcases h2 : foldLines b1 rest with ⟨b2, s2, m2⟩
    simp only [foldLines, h1, h2, List.map_cons, List.sum_cons]
    have e1 := moveLine_score b idxs
    rw [h1] at e1
    have e2 := ih b1 htail
    rw [h2] at e2
    simp only at e1 e2
    have hmaps : ∀ idxs' ∈ rest,
        (idxs'.map (getCell b1)) = idxs'.map (getCell b) := by
      intro idxs' h'
      refine List.map_congr_left fun j hj => ?_
      have : getCell (moveLine b idxs).1 j = getCell b j :=
        moveLine_frame b idxs (hhead idxs' h' j hj)
      rw [h1] at this
      exact this
    have e3 : (rest.map fun idxs' =>
          mergePairsScore ((idxs'.map (getCell b1)).filter (· ≠ 0))).sum =
        (rest.map fun idxs' =>
          mergePairsScore ((idxs'.map (getCell b)).filter (· ≠ 0))).sum := by
      congr 1
      exact List.map_congr_left fun idxs' h' => by rw [hmaps idxs' h']
    rw [e1, e2, e3]

lemma dirIdxs_cond (d : Nat) :
    (∀ idxs ∈ dirIdxs d, idxs.Nodup ∧ idxs.length = 4 ∧ ∀ i ∈ idxs, i < 16) ∧
    (dirIdxs d).Pairwise (fun l1 l2 => ∀ j ∈ l2, j ∉ l1) := by
  unfold dirIdxs idxsUp idxsDown idxsLeft idxsRight
  split_ifs <;> exact ⟨by decide, by decide⟩

lemma applyMove_length (b : List Nat) (d : Nat) :
    (applyMove b d).1.length = b.length :=
  foldLines_length (dirIdxs d) b

lemma applyMove_sum (b : List Nat) (hlen : b.length = 16) (d : Nat) :
    ((applyMove b d).1).sum = b.sum := by
  refine foldLines_sum (dirIdxs d) b fun idxs h => ?_
  obtain ⟨a1, a2, a3⟩ := (dirIdxs_cond d).1 idxs h
  exact ⟨a1, a2, fun i hi => by rw [hlen]; exact a3 i hi⟩

lemma applyMove_flag_false_score (b : List Nat) (d : Nat) :
    (applyMove b d).2.2 = false → (applyMove b d).2.1 = 0 :=
  foldLines_flag_false_score (dirIdxs d) b

lemma applyMove_score (b : List Nat) (d : Nat) :
    (applyMove b d).2.1 = moveMergeScore b d :=
  foldLines_score (dirIdxs d) b (dirIdxs_cond d).2

lemma applyMove_valid {b : List Nat} (d : Nat) (hb : ∀ v ∈ b, validCell v) :
    ∀ v ∈ (applyMove b d).1, validCell v :=
  foldLines_valid (dirIdxs d) b hb

/-! ### Helper lemmas about zero cells and the tile spawner -/

lemma nthZeroIdx_spec : ∀ (b : List Nat) (pos : Nat), pos < b.count 0 →
    ∃ i, nthZeroIdx b pos = some i ∧ i < b.length ∧ b.getD i 0 = 0 := by
  intro b
  induction b with
  | nil => intro pos h; simp at h
  | cons v rest ih =>
    intro pos h
    by_cases hv : v = 0
    · subst hv
      by_cases hp : pos = 0
      · exact ⟨0, by simp [nthZeroIdx, hp], by simp, rfl⟩
      · have hlt : pos - 1 < rest.count 0 := by
          rw [List.count_cons] at h
          simp only [beq_self_eq_true, if_true] at h
          omega
        obtain ⟨i, h1, h2, h3⟩ := ih (pos - 1) hlt
        exact ⟨i + 1, by simp [nthZeroIdx, hp, h1], by simpa using h2, by simpa using h3⟩
    · have hlt : pos < rest.count 0 := by
        rw [List.count_cons] at h
        simpa [hv] using h
      obtain ⟨i, h1, h2, h3⟩ := ih pos hlt
      exact ⟨i + 1, by simp [nthZeroIdx, hv, h1], by simpa using h2, by simpa using h3⟩

lemma count_zero_set {b : List Nat} {i v : Nat} (hi : i < b.length)
    (hbi : b.getD i 0 = 0) (hv : v ≠ 0) :
    (b.set i v).count 0 + 1 = b.count 0 := by
  have hc := List.count_set v 0 b i hi
  have hgi : b[i] = 0 := by
    rw [← List.getD_eq_getElem b 0 hi]
    exact hbi
  have hmem : (0 : Nat) ∈ b := hgi ▸ List.getElem_mem hi
  have hpos : 0 < b.count 0 := List.count_pos_iff.mpr hmem
  rw [hgi] at hc
  simp only [beq_self_eq_true, if_true, beq_iff_eq, hv, if_false] at hc
  omega

lemma countP_ne_zero_add_count (b : List Nat) :
    b.countP (fun v => v ≠ 0) + b.count 0 = b.length := by
  induction b with
  | nil => simp
  | cons a rest ih =>
    rw [List.countP_cons, List.count_cons]
    by_cases ha : a = 0
    · rw [if_neg (by simp [ha]), if_pos (by simp [ha])]
      simp only [List.length_cons]
      omega
    · rw [if_pos (by simp [ha]), if_neg (by simp [ha])]
      simp only [List.length_cons]
      omega

lemma addRandomTile_effect (e : Nat → Nat) (s : GameState) (h : s.board.count 0 ≠ 0) :
    ∃ i v, i < s.board.length ∧ s.board.getD i 0 = 0 ∧ (v = 2 ∨ v = 4) ∧
      addRandomTile e s =
        ({ s with board := s.board.set i v, nonce := s.nonce + 2 }, some (i, v)) := by
  have hpos : e (s.nonce + 1) % s.board.count 0 < s.board.count 0 :=
    Nat.mod_lt _ (Nat.pos_of_ne_zero h)
  obtain ⟨i, h1, h2, h3⟩ := nthZeroIdx_spec s.board _ hpos
  refine ⟨i, if e (s.nonce + 1 + 1) % 10 < 9 then 2 else 4, h2, h3, by split <;> simp, ?_⟩
  simp only [addRandomTile, if_neg h, h1]

lemma addRandomTile_count (e : Nat → Nat) (s : GameState) (h : s.board.count 0 ≠ 0) :
    (addRandomTile e s).1.board.count 0 + 1 = s.board.count 0 ∧
    (addRandomTile e s).1.board.length = s.board.length ∧
    (addRandomTile e s).1.score = s.score ∧
    (addRandomTile e s).1.gameOver = s.gameOver := by
  obtain ⟨i, v, h2, h3, hv, heq⟩ := addRandomTile_effect e s h
  have hvne : v ≠ 0 := by rcases hv with rfl | rfl <;> omega
  rw [heq]
  exact ⟨count_zero_set h2 h3 hvne, List.length_set .., rfl, rfl⟩

lemma addRandomTile_noop (e : Nat → Nat) (s : GameState) (h : s.board.count 0 = 0) :
    addRandomTile e s = (s, none) := by
  simp [addRandomTile, h]

/-! ### Further helper lemmas about `addRandomTile`, `move` and `resetGame` -/

lemma addRandomTile_keeps (e : Nat → Nat) (s : GameState) :
    (addRandomTile e s).1.score = s.score ∧
    (addRandomTile e s).1.gameOver = s.gameOver := by
  by_cases h : s.board.count 0 = 0
  · rw [addRandomTile_noop e s h]
    exact ⟨rfl, rfl⟩
  · obtain ⟨i, v, _, _, _, h4⟩ := addRandomTile_effect e s h
    rw [h4]
    exact ⟨rfl, rfl⟩

lemma moveTx_score (e : Nat → Nat) (s : GameState) (d : Nat) :
    (moveTx e s d).1.score =
      s.score + (if s.gameOver = false ∧ d < 4 then moveMergeScore s.board d else 0) := by
  by_cases hg : s.gameOver
  · simp [moveTx, move, hg]
  · have hg' : s.gameOver = false := by simpa using hg
    by_cases hd : d < 4
    · rcases ha : applyMove s.board d with ⟨b1, added, moved⟩
      have hsc := applyMove_score s.board d
      rw [ha] at hsc
      simp only at hsc
      rw [if_pos ⟨hg', hd⟩]
      cases moved with
      | false =>
        simp only [moveTx, move, hg', Bool.false_eq_true, if_false, if_pos hd, ha]
        simp [hsc]
      | true =>
        simp only [moveTx, move, hg', Bool.false_eq_true, if_false, if_pos hd, ha, if_true]
        rcases hat : addRandomTile e
            { board := b1, score := s.score + added, gameOver := false, nonce := s.nonce }
          with ⟨s2, tile⟩
        have h2 := (addRandomTile_keeps e
          { board := b1, score := s.score + added, gameOver := false, nonce := s.nonce }).1
        rw [hat] at h2
        simp only at h2
        by_cases hgo : isGameOverBoard s2.board <;> simp [hgo, h2, hsc]
    · simp [moveTx, move, hg', hd]

lemma runMoves_score_mono : ∀ (ms : List ((Nat → Nat) × Nat)) (s : GameState),
    s.score ≤ (runMoves s ms).score := by
  intro ms
  induction ms with
  | nil => intro s; simp [runMoves]
  | cons p rest ih =>
    intro s
    rcases p with ⟨e, d⟩
    simp only [runMoves]
    refine le_trans ?_ (ih _)
    rw [moveTx_score e s d]
    omega

/-! ## Claim theorems -/

/-- **C2**: In `_merge`, a tile produced by a merge is never re-compared
against the following element in the same pass: after an equal non-zero
adjacent pair `a, a` merges, the pass continues independently on the
remaining elements, so the merged tile takes no further part; in particular
merging the line `[2, 2, 2, 0]` toward the leading edge yields exactly
`[4, 2, 0, 0]` with a gained score of 4, not `[8, 0, 0, 0]`. -/
theorem merge_no_recompare :
    (∀ (a : Nat) (rest : List Nat), a ≠ 0 →
        mergePass (a :: a :: rest) =
          (a * 2 :: (mergePass rest).1, (mergePass rest).2.1 + a * 2, true)) ∧
    moveLine [2, 2, 2, 0] [0, 1, 2, 3] = ([4, 2, 0, 0], 4, true) := by
  constructor
  · intro a rest ha
    rcases hm : mergePass rest with ⟨l, s, m⟩
    simp [mergePass, ha, hm]
  · decide

/-- Witness for `merge_no_recompare` at `a = 2`, `rest = [2]`. -/
theorem merge_no_recompare_witness :
    mergePass (2 :: 2 :: [2]) =
      (2 * 2 :: (mergePass [2]).1, (mergePass [2]).2.1 + 2 * 2, true) :=
  merge_no_recompare.1 2 [2] (by decide)

/-- **C3**: `move` checks its preconditions in order: if `gameOver` is
already set it reverts with the GameOver error regardless of the direction;
otherwise, any direction outside `0..3` reverts with the InvalidDirection
error. In either rejection the transaction leaves the whole state — board,
score, GameOver flag and entropy nonce — exactly as it was, and emits no
events (the revert happens before any mutation). -/
theorem move_rejection (e : Nat → Nat) (s : GameState) (d : Nat) :
    (s.gameOver = true → moveTx e s d = (s, some MoveError.gameOverErr, [])) ∧
    (s.gameOver = false → 4 ≤ d →
      moveTx e s d = (s, some MoveError.invalidDirection, [])) := by
  constructor
  · intro hg
    simp [moveTx, move, hg]
  · intro hg hd
    simp [moveTx, move, hg, Nat.not_lt.mpr hd]

/-- Witness for `move_rejection`: a terminal state rejects direction 2, and
a live state rejects direction 9, both leaving the state untouched. -/
theorem move_rejection_witness :
    moveTx (fun _ => 0) ⟨List.replicate 16 0, 5, true, 7⟩ 2 =
      (⟨List.replicate 16 0, 5, true, 7⟩, some MoveError.gameOverErr, []) ∧
    moveTx (fun _ => 0) ⟨List.replicate 16 0, 5, false, 7⟩ 9 =
      (⟨List.replicate 16 0, 5, false, 7⟩, some MoveError.invalidDirection, []) :=
  ⟨(move_rejection _ _ _).1 rfl, (move_rejection _ _ _).2 rfl (by omega)⟩

/-- **C5**: the terminal detector `_isGameOver` returns true iff (a) no cell
is 0, (b) no two horizontally adjacent cells are equal, and (c) no two
vertically adjacent cells are equal. (It is a pure function of the board:
in the embedding it is a plain function with no state access.) -/
theorem isGameOver_iff (b : List Nat) :
    isGameOverBoard b = true ↔
      ((∀ i < 16, getCell b i ≠ 0) ∧
       (∀ y < 4, ∀ x < 3, getCell b (y * 4 + x) ≠ getCell b (y * 4 + x + 1)) ∧
       (∀ x < 4, ∀ y < 3, getCell b (y * 4 + x) ≠ getCell b ((y + 1) * 4 + x))) := by
  simp only [isGameOverBoard, Bool.and_eq_true, List.all_eq_true, List.mem_range,
    bne_iff_ne, ne_eq]
  tauto

/-- Witness for `isGameOver_iff` on a concrete terminal board. -/
theorem isGameOver_iff_witness :
    isGameOverBoard [2, 4, 2, 4, 4, 2, 4, 2, 2, 4, 2, 4, 4, 2, 4, 2] = true :=
  (isGameOver_iff _).mpr (by decide)

/-- **C9**: `move` is deterministic: two runs from states agreeing on the
board, the score, the GameOver flag and the nonce, with the same entropy
function and the same direction, produce identical results (state, error
outcome and emitted events alike) — both for the raw call and for the
transaction wrapper. -/
theorem move_deterministic (e : Nat → Nat) (s t : GameState) (d : Nat)
    (hb : s.board = t.board) (hs : s.score = t.score)
    (hg : s.gameOver = t.gameOver) (hn : s.nonce = t.nonce) :
    move e s d = move e t d ∧ moveTx e s d = moveTx e t d := by
  have hst : s = t := by
    cases s; cases t; simp_all
  rw [hst]
  exact ⟨rfl, rfl⟩

/-- Witness for `move_deterministic` on two equal concrete states. -/
theorem move_deterministic_witness :
    move (fun n => n) ⟨slideBoard, 0, false, 0⟩ 2 =
      move (fun n => n) slideState 2 :=
  (move_deterministic (fun n => n) ⟨slideBoard, 0, false, 0⟩ slideState 2
    rfl rfl rfl rfl).1

/-- **C1 (counterexample)**: with the single tile at `slideBoard` index 1
moved left, none of the four lines reports "changed" (the overall `moved`
flag is `false`), the call commits with no events, no spawn, and unchanged
score/GameOver/nonce — yet the resulting board differs from the original:
the tile slid from index 1 to index 0. So "the board is left exactly as it
was" fails. -/
theorem noop_claim_counterexample :
    (applyMove slideState.board 2).2.2 = false ∧
    move (fun _ => 0) slideState 2 =
      .ok (⟨[2, 0, 0, 0, 0, 0, 0, 0, 0, 0, 0, 0, 0, 0, 0, 0], 0, false, 0⟩, []) ∧
    ([2, 0, 0, 0, 0, 0, 0, 0, 0, 0, 0, 0, 0, 0, 0, 0] : List Nat) ≠ slideState.board := by
  refine ⟨by decide, by rfl, by decide⟩

/-- **C1 (amended)**: if none of the four lines reports "changed" during
`move`, the call returns successfully with the score, the GameOver flag and
the nonce left exactly as they were, no tile spawned and no
MoveMade/NewTileAdded event produced — but the board is still overwritten
with the written-back compacted lines, which can differ from the original
board when tiles only slid into gaps. -/
theorem noop_keeps_rest (e : Nat → Nat) (s : GameState) (d : Nat)
    (hg : s.gameOver = false) (hd : d < 4)
    (hm : (applyMove s.board d).2.2 = false) :
    move e s d = .ok ({ s with board := (applyMove s.board d).1 }, []) := by
  have hsc := applyMove_flag_false_score s.board d hm
  rcases ha : applyMove s.board d with ⟨b1, added, moved⟩
  rw [ha] at hm hsc
  simp only at hm hsc
  subst hm
  simp only [move, hg, Bool.false_eq_true, if_false, if_pos hd, ha, hsc]
  simp

/-- Witness for `noop_keeps_rest` at the pure-slide state. -/
theorem noop_keeps_rest_witness :
    move (fun _ => 0) slideState 2 =
      .ok ({ slideState with board := (applyMove slideState.board 2).1 }, []) :=
  noop_keeps_rest (fun _ => 0) slideState 2 rfl (by omega) (by decide)

/-- **C4**: the score is monotonically non-decreasing across any sequence of
`move` transactions, and a single transaction adds to the score exactly
`moveMergeScore` — the sum over the four lines of the doubled values created
by that line's merges — while any rejected transaction (game over or invalid
direction) adds 0. A no-op move adds `moveMergeScore` as well, which is 0
because no merge occurred. -/
theorem score_exact_and_monotone (s : GameState) :
    (∀ (e : Nat → Nat) (d : Nat), (moveTx e s d).1.score =
        s.score + (if s.gameOver = false ∧ d < 4 then moveMergeScore s.board d else 0)) ∧
    (∀ ms : List ((Nat → Nat) × Nat), s.score ≤ (runMoves s ms).score) :=
  ⟨fun e d => moveTx_score e s d, fun ms => runMoves_score_mono ms s⟩

/-- **C8**: `_addRandomTile` is total and safe: on a board with no empty
cell it changes nothing and reports no tile; otherwise it writes 2 or 4
into exactly one previously-empty cell, leaves every other cell unchanged,
advances the nonce by the two `_random` draws, and reports the affected
position and value. -/
theorem addRandomTile_total_safe (e : Nat → Nat) (s : GameState) :
    (s.board.count 0 = 0 → addRandomTile e s = (s, none)) ∧
    (s.board.count 0 ≠ 0 → ∃ i v, i < s.board.length ∧ s.board.getD i 0 = 0 ∧
      (v = 2 ∨ v = 4) ∧
      (addRandomTile e s).1 =
        { s with board := s.board.set i v, nonce := s.nonce + 2 } ∧
      (addRandomTile e s).2 = some (i, v) ∧
      ∀ j, j ≠ i → getCell (addRandomTile e s).1.board j = getCell s.board j) := by
  refine ⟨addRandomTile_noop e s, fun h => ?_⟩
  obtain ⟨i, v, h1, h2, h3, h4⟩ := addRandomTile_effect e s h
  refine ⟨i, v, h1, h2, h3, by rw [h4], by rw [h4], fun j hj => ?_⟩
  rw [h4]
  exact getCell_set_ne (Ne.symm hj) v

/-- Witness for `addRandomTile_total_safe`: the no-empty-cell case on a full
board, and the spawning case on the empty initial board. -/
theorem addRandomTile_total_safe_witness :
    addRandomTile (fun _ => 5) ⟨[2, 4, 2, 4, 4, 2, 4, 2, 2, 4, 2, 4, 4, 2, 4, 2], 10, false, 3⟩ =
      (⟨[2, 4, 2, 4, 4, 2, 4, 2, 2, 4, 2, 4, 4, 2, 4, 2], 10, false, 3⟩, none) ∧
    (∃ i v, i < initState.board.length ∧ initState.board.getD i 0 = 0 ∧
      (v = 2 ∨ v = 4) ∧
      (addRandomTile (fun _ => 5) initState).1 =
        { initState with board := initState.board.set i v, nonce := initState.nonce + 2 } ∧
      (addRandomTile (fun _ => 5) initState).2 = some (i, v) ∧
      ∀ j, j ≠ i →
        getCell (addRandomTile (fun _ => 5) initState).1.board j =
          getCell initState.board j) :=
  ⟨(addRandomTile_total_safe (fun _ => 5) _).1 (by decide),
   (addRandomTile_total_safe (fun _ => 5) initState).2 (by decide)⟩

/-- **C10**: merging conserves total tile value — the merge pass output sums
to its input; consequently the merge/write-back phase of a move preserves
the sum of the 16 board cells, and a successful tile spawn increases the
board sum by exactly the spawned value, which is 2 or 4. -/
theorem sum_conservation :
    (∀ l : List Nat, ((mergePass l).1).sum = l.sum) ∧
    (∀ (b : List Nat) (d : Nat), d < 4 → b.length = 16 →
        ((applyMove b d).1).sum = b.sum) ∧
    (∀ (e : Nat → Nat) (s : GameState) (i v : Nat),
        (addRandomTile e s).2 = some (i, v) →
        (v = 2 ∨ v = 4) ∧ ((addRandomTile e s).1.board).sum = s.board.sum + v) := by
  refine ⟨mergePass_sum, fun b d _ hlen => applyMove_sum b hlen d, ?_⟩
  intro e s i v hev
  by_cases h : s.board.count 0 = 0
  · rw [addRandomTile_noop e s h] at hev
    simp at hev
  · obtain ⟨i', v', h1, h2, h3, h4⟩ := addRandomTile_effect e s h
    rw [h4] at hev ⊢
    simp only [Option.some.injEq, Prod.mk.injEq] at hev
    obtain ⟨rfl, rfl⟩ := hev
    have hs := sum_set_add h1 v'
    rw [getCell] at hs
    rw [h2] at hs
    exact ⟨h3, by simpa using hs⟩

/-- Witness for `sum_conservation`: a concrete left move preserves the board
sum, and a concrete spawn on the empty board adds exactly its value. -/
theorem sum_conservation_witness :
    ((applyMove slideBoard 2).1).sum = slideBoard.sum ∧
    ((addRandomTile (fun _ => 0) initState).1.board).sum = initState.board.sum + 2 :=
  ⟨sum_conservation.2.1 slideBoard 2 (by omega) (by decide),
   (sum_conservation.2.2 (fun _ => 0) initState 0 2 (by decide)).2⟩

/-! ### Reset and invariant lemmas -/

lemma resetGame_fst (e : Nat → Nat) (prior : GameState) :
    (resetGame e prior).1 = (addRandomTile e (addRandomTile e initState).1).1 := by
  unfold resetGame
  rcases h1 : addRandomTile e initState with ⟨s1, t1⟩
  rcases h2 : addRandomTile e s1 with ⟨s2, t2⟩
  simp [h1, h2]

lemma addRandomTile_validBoard (e : Nat → Nat) (s : GameState)
    (h : validBoard s.board) : validBoard (addRandomTile e s).1.board := by
  by_cases hc : s.board.count 0 = 0
  · rw [addRandomTile_noop e s hc]
    exact h
  · obtain ⟨i, v, _, _, h3, h4⟩ := addRandomTile_effect e s hc
    rw [h4]
    refine ⟨by simpa [List.length_set] using h.1, fun w hw => ?_⟩
    rcases List.mem_or_eq_of_mem_set hw with hmem | rfl
    · exact h.2 w hmem
    · rcases h3 with rfl | rfl
      · exact validCell_two
      · exact validCell_four

lemma move_ok_validBoard {e : Nat → Nat} {s : GameState} {d : Nat} {s' : GameState}
    {evs : List Event} (hok : move e s d = .ok (s', evs)) (h : validBoard s.board) :
    validBoard s'.board := by
  by_cases hg : s.gameOver
  · simp [move, hg] at hok
  · have hg' : s.gameOver = false := by simpa using hg
    by_cases hd : d < 4
    · have hvalid1 : validBoard (applyMove s.board d).1 :=
        ⟨by rw [applyMove_length]; exact h.1, applyMove_valid d h.2⟩
      rcases ha : applyMove s.board d with ⟨b1, added, moved⟩
      rw [ha] at hvalid1
      simp only at hvalid1
      cases moved with
      | false =>
        simp only [move, hg', Bool.false_eq_true, if_false, if_pos hd, ha,
          Except.ok.injEq, Prod.mk.injEq] at hok
        rw [← hok.1]
        exact hvalid1
      | true =>
        simp only [move, hg', Bool.false_eq_true, if_false, if_pos hd, ha, if_true] at hok
        rcases hat : addRandomTile e
            { board := b1, score := s.score + added, gameOver := false, nonce := s.nonce }
          with ⟨s2, tile⟩
        rw [hat] at hok
        have h2 : validBoard s2.board := by
          have hv := addRandomTile_validBoard e
            { board := b1, score := s.score + added, gameOver := false, nonce := s.nonce }
            hvalid1
          rw [hat] at hv
          exact hv
        by_cases hgo : isGameOverBoard s2.board
        · simp only [hgo, if_true, Except.ok.injEq, Prod.mk.injEq] at hok
          rw [← hok.1]
          exact h2
        · simp only [hgo, Bool.false_eq_true, if_false, Except.ok.injEq,
            Prod.mk.injEq] at hok
          rw [← hok.1]
          exact h2
    · simp [move, hg', hd] at hok

lemma moveTx_validBoard (e : Nat → Nat) (s : GameState) (d : Nat)
    (h : validBoard s.board) : validBoard (moveTx e s d).1.board := by
  rcases hmv : move e s d with err | ⟨s', evs⟩
  · simpa [moveTx, hmv] using h
  · simpa [moveTx, hmv] using move_ok_validBoard hmv h

lemma initState_validBoard : validBoard initState.board :=
  ⟨by decide, fun v hv => Or.inl (List.eq_of_mem_replicate hv)⟩

lemma resetGame_validBoard (e : Nat → Nat) (prior : GameState) :
    validBoard (resetGame e prior).1.board := by
  rw [resetGame_fst]
  exact addRandomTile_validBoard e _ (addRandomTile_validBoard e _ initState_validBoard)

/-- **C6**: for every prior state and every entropy function, `resetGame`
yields a board with exactly 2 non-zero cells (the two spawns necessarily
land in distinct cells), 16 entries, score 0 and GameOver false; the result
does not depend on the prior state at all (it is overwritten wholesale). -/
theorem reset_spec (e : Nat → Nat) (prior : GameState) :
    (resetGame e prior).1.board.countP (fun v => v ≠ 0) = 2 ∧
    (resetGame e prior).1.board.length = 16 ∧
    (resetGame e prior).1.score = 0 ∧
    (resetGame e prior).1.gameOver = false ∧
    resetGame e prior = resetGame e initState := by
  have h0 : initState.board.count 0 = 16 := by decide
  have h0len : initState.board.length = 16 := by decide
  have hne : initState.board.count 0 ≠ 0 := by omega
  obtain ⟨c1, l1, sc1, g1⟩ := addRandomTile_count e initState hne
  have hne1 : (addRandomTile e initState).1.board.count 0 ≠ 0 := by omega
  obtain ⟨c2, l2, sc2, g2⟩ := addRandomTile_count e (addRandomTile e initState).1 hne1
  have hcount := countP_ne_zero_add_count (addRandomTile e (addRandomTile e initState).1).1.board
  rw [resetGame_fst]
  refine ⟨by omega, by omega, ?_, ?_, rfl⟩
  · rw [sc2, sc1]; rfl
  · rw [g2, g1]; rfl

/-- **C7**: every reachable state — any sequence of `resetGame` and `move`
transactions from initialization, under any entropy — has a board with
exactly 16 entries, each either 0 or a power of two that is at least 2;
and this invariant is established by reset and preserved by every move
transaction and by every tile spawn. -/
theorem reachable_board_invariant :
    (∀ s : GameState, Reachable s → validBoard s.board) ∧
    (∀ (e : Nat → Nat) (prior : GameState), validBoard (resetGame e prior).1.board) ∧
    (∀ (e : Nat → Nat) (s : GameState) (d : Nat), validBoard s.board →
        validBoard (moveTx e s d).1.board) ∧
    (∀ (e : Nat → Nat) (s : GameState), validBoard s.board →
        validBoard (addRandomTile e s).1.board) := by
  refine ⟨?_, resetGame_validBoard, moveTx_validBoard, addRandomTile_validBoard⟩
  intro s hr
  induction hr with
  | reset e prior => exact resetGame_validBoard e prior
  | step e d hs ih => exact moveTx_validBoard e _ d ih

/-- Witness for `reachable_board_invariant`: the state reached by one reset
is reachable and its board satisfies the invariant; spawning on the valid
empty initial board preserves the invariant. -/
theorem reachable_board_invariant_witness :
    validBoard (resetGame (fun _ => 0) initState).1.board ∧
    validBoard (addRandomTile (fun _ => 0) initState).1.board :=
  ⟨reachable_board_invariant.1 _ (Reachable.reset (fun _ => 0) initState),
   reachable_board_invariant.2.2.2 (fun _ => 0) initState
     ⟨by decide, fun v hv => Or.inl (List.eq_of_mem_replicate hv)⟩⟩
